import Mathlib

/-!
# Verification of yase (Yet Another S3 Enumerator)

A shallow embedding of `src/yase/__main__.py` and proofs about it.

* The candidate generator (`prefix_permutations`, `mod_permutations`,
  `generate_buckets`) is embedded as pure list-producing functions; Python
  generators that lazily yield a finite sequence become Lean lists.
* The probe providers (`fetch_bucket_s3`, `fetch_bucket_gcp`) are embedded
  as pure functions of the network response: the DNS resolution (or HTTP
  request) outcome becomes an explicit `Except` argument, exceptions from
  the collaborator become the `.error` branch, and Python `None` becomes
  `Option.none`.
* The deduplication generator `unique_everseen` becomes a function on lists
  carrying the seen-set as a list.
* The scheduler `bounded_as_completed` becomes a state machine: the state
  holds the in-flight `futures` list and the not-yet-admitted tail of the
  input stream; one step models one pass through `first_to_finish` in which
  the environment (network timing) chooses which in-flight task is `done`.
-/

namespace Yase

/-- `S3_NOT_FOUND_INDICATION = 's3-directional'` from the source. -/
def S3_NOT_FOUND_INDICATION : String := "s3-directional"

/-- The `result` object returned by `resolver.query`, reduced to the one
field the source reads: `result.cname`. -/
structure CNAMEResult where
  cname : String
  deriving DecidableEq, Repr

/-- Embedding of `fetch_bucket_s3`: the DNS resolution outcome is passed
explicitly (`.error` models a raised `aiodns.error.DNSError`).  Python's
`S3_NOT_FOUND_INDICATION in result.cname` is substring containment, embedded
as list-of-characters infix. -/
def fetch_bucket_s3 (bucket_name : String) (resolution : Except Unit CNAMEResult) :
    Option String :=
  match resolution with
  | .ok result =>
      if S3_NOT_FOUND_INDICATION.data <:+: result.cname.data then
        none
      else
        some ("s3://" ++ bucket_name)
  | .error _ => none

/-- Embedding of `fetch_bucket_gcp`: the HTTP response is reduced to its
status code, passed explicitly (`.error` models a raised
`aiohttp.ClientError`). -/
def fetch_bucket_gcp (bucket_name : String) (response : Except Unit Nat) :
    Option String :=
  match response with
  | .ok status =>
      if status = 400 ∨ status = 404 then
        none
      else
        some ("gs://" ++ bucket_name)
  | .error _ => none

/-- Embedding of `prefix_permutations` (the unused `modifiers` parameter of
the Python function is dropped): the six two-part candidate forms. -/
def prefix_permutations (target pfx : String) : List String :=
  [target ++ "." ++ pfx,
   target ++ "-" ++ pfx,
   target ++ pfx,
   pfx ++ "." ++ target,
   pfx ++ "-" ++ target,
   pfx ++ target]

/-- Embedding of `mod_permutations`: for each modifier, the ten three-part
candidate forms, in source order. -/
def mod_permutations (target pfx : String) (modifiers : List String) : List String :=
  modifiers.flatMap fun m =>
    [target ++ "-" ++ pfx ++ "-" ++ m,
     target ++ "-" ++ m ++ "-" ++ pfx,
     target ++ "." ++ pfx ++ "." ++ m,
     target ++ "." ++ m ++ "." ++ pfx,
     target ++ "." ++ pfx ++ "-" ++ m,
     target ++ "." ++ m ++ "-" ++ pfx,
     target ++ "-" ++ pfx ++ "." ++ m,
     target ++ "-" ++ m ++ "." ++ pfx,
     target ++ "-" ++ pfx ++ m,
     target ++ "-" ++ m ++ pfx]

/-- Embedding of `generate_buckets`: the target, then for each prefix entry
(in wordlist order) first `mod_permutations`, then `prefix_permutations`,
exactly as the source's `yield from` lines are ordered. -/
def generate_buckets (target : String) (prefixes modifiers : List String) :
    List String :=
  target :: prefixes.flatMap fun name =>
    mod_permutations target name modifiers ++ prefix_permutations target name

/-- Embedding of `unique_everseen` (the `key=None` branch used by `main`),
with the `seen` set carried as a list. -/
def unique_everseen_from (seen : List String) : List String → List String
  | [] => []
  | x :: xs =>
      if x ∈ seen then
        unique_everseen_from seen xs
      else
        x :: unique_everseen_from (x :: seen) xs

/-- `unique_everseen` starts with an empty seen set. -/
def unique_everseen (l : List String) : List String :=
  unique_everseen_from [] l

/-- Specification-side dedup, from the spec's words: "a string already
produced earlier in the sequence (by exact value) is suppressed on every
later occurrence; first occurrence wins and preserves its position".
Each kept element filters all of its later occurrences away. -/
def keepFirstOccurrences : List String → List String
  | [] => []
  | x :: xs => x :: keepFirstOccurrences (xs.filter fun y => y ≠ x)
termination_by l => l.length
decreasing_by
  simp only [List.length_cons]
  exact Nat.lt_succ_of_le (List.length_filter_le _ _)

/-- The two probe backends, in the registration order of `main`'s stream:
for each candidate the source builds `(fetch_bucket_s3(name),
fetch_bucket_gcp(name))`. -/
inductive Provider where
  | s3
  | gcp
  deriving DecidableEq, Repr

/-- The pending-operation stream built in `main`:
`itertools.chain.from_iterable((fetch_bucket_s3(name), fetch_bucket_gcp(name))
for name in unique_everseen(generate_buckets(...)))`, with each un-started
coroutine represented by its (candidate, provider) pair. -/
def pendingOps (target : String) (prefixes modifiers : List String) :
    List (String × Provider) :=
  (unique_everseen (generate_buckets target prefixes modifiers)).flatMap fun name =>
    [(name, Provider.s3), (name, Provider.gcp)]

/-! ## The bounded scheduler

`bounded_as_completed(coros, bound)` keeps a `futures` list of in-flight
tasks and the un-consumed tail of `coros`.  It starts by admitting
`islice(coros, 0, bound)`; then, while `futures` is non-empty, each
`first_to_finish` pass waits until some task is done, removes the first done
task from `futures`, admits `next(coros)` (if any) at the end of the list,
and yields the finished task's result.

The embedding makes the task list and the pending tail explicit state.
Which task finishes first is decided by the network, so a step takes the
index `i` of the completing task as an oracle input; a run is driven by a
list of such choices.  Tasks are represented by an arbitrary type `α`
(the task's eventual result). -/

/-- Scheduler state: the in-flight `futures` list and the un-consumed tail
of the input stream. -/
structure SchedState (α : Type) where
  futures : List α
  pending : List α
  deriving DecidableEq, Repr

/-- The initial state of `bounded_as_completed`: `futures` holds
`islice(coros, 0, bound)` and the rest of the stream is still pending. -/
def initState (coros : List α) (bound : Nat) : SchedState α :=
  ⟨coros.take bound, coros.drop bound⟩

/-- One completion step of `first_to_finish`: the environment designates the
in-flight task at index `i` as the first `done` one; it is removed from
`futures`, one pending operation (if any) is admitted at the end of the
list, and the task's result is emitted.  `none` when `i` is out of range
(no such in-flight task). -/
def stepSched (s : SchedState α) (i : Nat) : Option (α × SchedState α) :=
  match s.futures[i]? with
  | none => none
  | some f =>
      match s.pending with
      | [] => some (f, ⟨s.futures.eraseIdx i, []⟩)
      | p :: ps => some (f, ⟨s.futures.eraseIdx i ++ [p], ps⟩)

/-- The results yielded along a run driven by the oracle choices `sched`
(the run stops early if a choice is invalid). -/
def runSched (s : SchedState α) : List Nat → List α
  | [] => []
  | i :: rest =>
      match stepSched s i with
      | none => []
      | some (r, s') => r :: runSched s' rest

/-- The state reached after the oracle choices `sched`; `none` if some
choice was invalid. -/
def runSchedState (s : SchedState α) : List Nat → Option (SchedState α)
  | [] => some s
  | i :: rest =>
      match stepSched s i with
      | none => none
      | some (_, s') => runSchedState s' rest

/-- `sched` drives the scheduler to termination: every choice is valid and
afterwards `futures` is empty, which is exactly when the source's
`while len(futures) > 0` loop exits. -/
def completesRun (s : SchedState α) : List Nat → Bool
  | [] => s.futures.isEmpty
  | i :: rest =>
      match stepSched s i with
      | none => false
      | some (_, s') => completesRun s' rest

/-! ## Helper lemmas -/

/-- A list is a contiguous part of itself followed by anything. -/
theorem contains_of_append_right (l r : List Char) : l <:+: l ++ r :=
  ⟨[], r, by simp⟩

/-- A list is a contiguous part of anything followed by itself. -/
theorem contains_of_append_left (l r : List Char) : r <:+: l ++ r :=
  ⟨l, [], by simp⟩

/-- A list is a contiguous part of two lists followed by itself. -/
theorem contains_of_append_left₂ (a b r : List Char) : r <:+: a ++ (b ++ r) :=
  ⟨a ++ b, [], by simp⟩

/-! ## C3, C4: candidate generator order and edge cases -/

/-- C3 counterexample: the claim predicts, for target `"t"`, prefixes
`["p"]`, modifiers `["m"]`, the target followed by the six two-part forms
and only then the ten three-part forms; the code disagrees (the element at
index 1 is already the three-part `"t-p-m"`). -/
theorem generate_buckets_order_counterexample :
    generate_buckets "t" ["p"] ["m"] ≠
      ["t",
       "t.p", "t-p", "tp", "p.t", "p-t", "pt",
       "t-p-m", "t-m-p", "t.p.m", "t.m.p", "t.p-m", "t.m-p", "t-p.m",
       "t-m.p", "t-pm", "t-mp"] ∧
    (generate_buckets "t" ["p"] ["m"])[1]? = some "t-p-m" := by
  constructor
  · decide
  · decide

/-- C3 amended: the generator yields the target first and then, for each
prefix `p` in wordlist order, FIRST the ten three-part patterns (for each
modifier `m` in wordlist order, in the listed pattern order) and THEN the
six two-part forms; per prefix, every three-part form precedes every
two-part form. -/
theorem generate_buckets_order (t : String) (ps ms : List String) :
    generate_buckets t ps ms =
      t :: ps.flatMap fun p =>
        (ms.flatMap fun m =>
          [t ++ "-" ++ p ++ "-" ++ m,
           t ++ "-" ++ m ++ "-" ++ p,
           t ++ "." ++ p ++ "." ++ m,
           t ++ "." ++ m ++ "." ++ p,
           t ++ "." ++ p ++ "-" ++ m,
           t ++ "." ++ m ++ "-" ++ p,
           t ++ "-" ++ p ++ "." ++ m,
           t ++ "-" ++ m ++ "." ++ p,
           t ++ "-" ++ p ++ m,
           t ++ "-" ++ m ++ p]) ++
        [t ++ "." ++ p,
         t ++ "-" ++ p,
         t ++ p,
         p ++ "." ++ t,
         p ++ "-" ++ t,
         p ++ t] := by
  simp only [generate_buckets, mod_permutations, prefix_permutations]

/-- C4 counterexample: with a non-empty prefix list and an empty modifier
list the generator does NOT yield only the target — the six two-part forms
are still produced. -/
theorem generate_buckets_empty_modifiers_counterexample :
    generate_buckets "acme" ["dev"] [] ≠ ["acme"] := by
  decide

/-- C4 amended: with an empty prefix list the generator yields exactly the
target (whatever the modifiers are); with an empty modifier list it yields
the target followed by the six two-part forms for each prefix in wordlist
order. -/
theorem generate_buckets_empty_wordlists (t : String) (ps ms : List String) :
    generate_buckets t [] ms = [t] ∧
    generate_buckets t ps [] =
      t :: ps.flatMap fun p =>
        [t ++ "." ++ p,
         t ++ "-" ++ p,
         t ++ p,
         p ++ "." ++ t,
         p ++ "-" ++ t,
         p ++ t] := by
  constructor <;>
    simp [generate_buckets, mod_permutations, prefix_permutations]

/-! ## C5, C6: probe provider contracts -/

/-- C5: the S3 (DNS-based) probe maps a successful lookup whose canonical
name contains the "not found" marker to `none` (NotFound), any other
successful lookup to `some "s3://{candidate}"`, and a raised DNS error to
`none` — it never propagates the error. -/
theorem fetch_bucket_s3_contract (b : String) :
    (∀ r : CNAMEResult, S3_NOT_FOUND_INDICATION.data <:+: r.cname.data →
        fetch_bucket_s3 b (.ok r) = none) ∧
    (∀ r : CNAMEResult, ¬ S3_NOT_FOUND_INDICATION.data <:+: r.cname.data →
        fetch_bucket_s3 b (.ok r) = some ("s3://" ++ b)) ∧
    (∀ e : Unit, fetch_bucket_s3 b (.error e) = none) := by
  refine ⟨fun r h => ?_, fun r h => ?_, fun e => rfl⟩ <;>
    simp [fetch_bucket_s3, h]

/-- C5 witness: the contract evaluated at a marker-bearing CNAME, a clean
CNAME, and a DNS error. -/
theorem fetch_bucket_s3_contract_witness :
    fetch_bucket_s3 "b" (.ok ⟨"x.s3-directional.aws"⟩) = none ∧
    fetch_bucket_s3 "b" (.ok ⟨"x.aws"⟩) = some ("s3://" ++ "b") ∧
    fetch_bucket_s3 "b" (.error ()) = none :=
  ⟨(fetch_bucket_s3_contract "b").1 ⟨"x.s3-directional.aws"⟩ (by decide),
   (fetch_bucket_s3_contract "b").2.1 ⟨"x.aws"⟩ (by decide),
   (fetch_bucket_s3_contract "b").2.2 ()⟩

/-- C6: the GCS (HTTP-based) probe maps status 400 and 404 to `none`
(NotFound), any other successful response to `some "gs://{candidate}"`,
and a raised client error to `none` — it never propagates the error. -/
theorem fetch_bucket_gcp_contract (b : String) :
    (∀ status : Nat, status = 400 ∨ status = 404 →
        fetch_bucket_gcp b (.ok status) = none) ∧
    (∀ status : Nat, status ≠ 400 → status ≠ 404 →
        fetch_bucket_gcp b (.ok status) = some ("gs://" ++ b)) ∧
    (∀ e : Unit, fetch_bucket_gcp b (.error e) = none) := by
  refine ⟨fun st h => ?_, fun st h₁ h₂ => ?_, fun e => rfl⟩
  · simp [fetch_bucket_gcp, h]
  · simp [fetch_bucket_gcp, h₁, h₂]

/-- C6 witness: the contract evaluated at status 404, status 200, and a
client error. -/
theorem fetch_bucket_gcp_contract_witness :
    fetch_bucket_gcp "b" (.ok 404) = none ∧
    fetch_bucket_gcp "b" (.ok 200) = some ("gs://" ++ "b") ∧
    fetch_bucket_gcp "b" (.error ()) = none :=
  ⟨(fetch_bucket_gcp_contract "b").1 404 (Or.inr rfl),
   (fetch_bucket_gcp_contract "b").2.1 200 (by decide) (by decide),
   (fetch_bucket_gcp_contract "b").2.2 ()⟩

/-! ## C10: every candidate contains the target -/

/-- C10: every string yielded by `generate_buckets` contains the target as
a contiguous substring (stated on the underlying character lists). -/
theorem generate_buckets_contain_target (t : String) (ps ms : List String) :
    ∀ s ∈ generate_buckets t ps ms, t.data <:+: s.data := by
  intro s hs
  simp only [generate_buckets, mod_permutations, prefix_permutations,
    List.mem_cons, List.mem_flatMap, List.mem_append, List.not_mem_nil,
    or_false] at hs
  rcases hs with rfl | ⟨p, _, ⟨m, _, hforms⟩ | hforms⟩
  · exact ⟨[], [], by simp⟩
  all_goals
    rcases hforms with rfl | rfl | rfl | rfl | rfl | rfl | rfl | rfl | rfl | rfl <;>
      simp only [String.data_append, List.append_assoc] <;>
      first
        | exact contains_of_append_right _ _
        | exact contains_of_append_left _ _
        | exact contains_of_append_left₂ _ _ _

/-- C10 witness: the target `"acme"` is a contiguous substring of the
generated candidate `"dev.acme"`. -/
theorem generate_buckets_contain_target_witness :
    "acme".data <:+: "dev.acme".data :=
  generate_buckets_contain_target "acme" ["dev"] [] "dev.acme" (by decide)

/-! ## C7: deduplication -/

/-- Running `unique_everseen` from a seen set is the same as dropping the
already-seen values and then keeping first occurrences. -/
theorem unique_everseen_from_eq (l : List String) :
    ∀ seen : List String,
      unique_everseen_from seen l =
        keepFirstOccurrences (l.filter fun x => x ∉ seen) := by
  induction l with
  | nil => intro seen; simp [unique_everseen_from, keepFirstOccurrences]
  | cons x xs ih =>
    intro seen
    by_cases hx : x ∈ seen
    · rw [unique_everseen_from, if_pos hx, List.filter_cons_of_neg (by simp [hx]),
        ih seen]
    · rw [unique_everseen_from, if_neg hx, List.filter_cons_of_pos (by simp [hx]),
        keepFirstOccurrences, ih (x :: seen), List.filter_filter]
      congr 1
      congr 1
      apply List.filter_congr
      intro a _
      simp only [List.mem_cons, not_or, decide_not]
      cases ha : decide (a = x) <;> cases hs : decide (a ∈ seen) <;> simp_all

/-- `unique_everseen` is exactly "keep the first occurrence of each value".
-/
theorem unique_everseen_eq_keepFirst (l : List String) :
    unique_everseen l = keepFirstOccurrences l := by
  rw [unique_everseen, unique_everseen_from_eq]
  congr 1
  simp

/-- Appending elements that all occurred before changes nothing about which
first occurrences are kept. -/
theorem keepFirst_append_of_subset (n : Nat) :
    ∀ l extra : List String, l.length ≤ n → extra ⊆ l →
      keepFirstOccurrences (l ++ extra) = keepFirstOccurrences l := by
  induction n with
  | zero =>
    intro l extra hlen hsub
    have hl : l = [] := List.eq_nil_of_length_eq_zero (Nat.le_zero.mp hlen)
    subst hl
    have : extra = [] := List.subset_nil.mp hsub
    simp [this]
  | succ n ih =>
    intro l extra hlen hsub
    cases l with
    | nil =>
      have : extra = [] := List.subset_nil.mp hsub
      simp [this]
    | cons x xs =>
      rw [List.cons_append, keepFirstOccurrences, keepFirstOccurrences,
        List.filter_append]
      congr 1
      apply ih
      · calc ((xs.filter fun y => y ≠ x).length) ≤ xs.length :=
              List.length_filter_le _ _
          _ ≤ n := Nat.le_of_succ_le_succ hlen
      · intro a ha
        simp only [List.mem_filter, decide_not, Bool.not_eq_eq_eq_not,
          Bool.not_true, decide_eq_false_iff_not] at ha ⊢
        obtain ⟨hmem, hne⟩ := ha
        have : a ∈ x :: xs := hsub hmem
        rcases List.mem_cons.mp this with rfl | hxs
        · exact absurd rfl hne
        · exact ⟨hxs, hne⟩

/-- C7: `unique_everseen` keeps exactly the first occurrence of each value
(equality with the spec-side `keepFirstOccurrences`), and the deduplicated
generator is idempotent with respect to a duplicated prefix entry. -/
theorem unique_everseen_first_wins_and_idempotent :
    (∀ l : List String, unique_everseen l = keepFirstOccurrences l) ∧
    (∀ (t : String) (ms : List String),
      unique_everseen (generate_buckets t ["dev", "dev"] ms) =
        unique_everseen (generate_buckets t ["dev"] ms)) := by
  refine ⟨unique_everseen_eq_keepFirst, fun t ms => ?_⟩
  rw [unique_everseen_eq_keepFirst, unique_everseen_eq_keepFirst]
  have hgen₂ :
      generate_buckets t ["dev", "dev"] ms =
        generate_buckets t ["dev"] ms ++
          (mod_permutations t "dev" ms ++ prefix_permutations t "dev") := by
    simp [generate_buckets]
  rw [hgen₂]
  apply keepFirst_append_of_subset (generate_buckets t ["dev"] ms).length
  · exact Nat.le_refl _
  · intro a ha
    simp only [generate_buckets, List.flatMap_cons, List.flatMap_nil,
      List.append_nil, List.mem_cons, List.mem_append]
    right
    exact (List.mem_append.mp ha)

/-! ## C8: structure of the pending-operation stream -/

/-- Everything kept by `keepFirstOccurrences` occurred in the input. -/
theorem keepFirst_subset (n : Nat) :
    ∀ l : List String, l.length ≤ n → keepFirstOccurrences l ⊆ l := by
  induction n with
  | zero =>
    intro l hlen
    have hl : l = [] := List.eq_nil_of_length_eq_zero (Nat.le_zero.mp hlen)
    subst hl
    simp [keepFirstOccurrences]
  | succ n ih =>
    intro l hlen
    cases l with
    | nil => simp [keepFirstOccurrences]
    | cons x xs =>
      rw [keepFirstOccurrences]
      intro a ha
      rcases List.mem_cons.mp ha with rfl | ha
      · exact List.mem_cons_self _ _
      · have hmem := ih (xs.filter fun y => y ≠ x)
          (le_trans (List.length_filter_le _ _) (Nat.le_of_succ_le_succ hlen)) ha
        exact List.mem_cons_of_mem _ (List.mem_of_mem_filter hmem)

/-- `keepFirstOccurrences` never emits the same value twice. -/
theorem keepFirst_nodup (n : Nat) :
    ∀ l : List String, l.length ≤ n → (keepFirstOccurrences l).Nodup := by
  induction n with
  | zero =>
    intro l hlen
    have hl : l = [] := List.eq_nil_of_length_eq_zero (Nat.le_zero.mp hlen)
    subst hl
    simp [keepFirstOccurrences]
  | succ n ih =>
    intro l hlen
    cases l with
    | nil => simp [keepFirstOccurrences]
    | cons x xs =>
      rw [keepFirstOccurrences]
      have hfl : (xs.filter fun y => y ≠ x).length ≤ n :=
        le_trans (List.length_filter_le _ _) (Nat.le_of_succ_le_succ hlen)
      refine List.nodup_cons.mpr ⟨fun hx => ?_, ih _ hfl⟩
      have := keepFirst_subset n _ hfl hx
      have := List.mem_filter.mp this
      simp at this

/-- The deduplicated candidate stream has no duplicates. -/
theorem unique_everseen_nodup (l : List String) : (unique_everseen l).Nodup := by
  rw [unique_everseen_eq_keepFirst]
  exact keepFirst_nodup l.length l (Nat.le_refl _)

/-- Fanning a candidate list out to the two providers yields each
(candidate, provider) pair as often as the candidate occurs. -/
theorem flatMap_pair_count (l : List String) (c : String) (prov : Provider) :
    (l.flatMap fun name => [(name, Provider.s3), (name, Provider.gcp)]).count
        (c, prov) = l.count c := by
  induction l with
  | nil => simp
  | cons x xs ih =>
    simp only [List.flatMap_cons, List.cons_append, List.nil_append,
      List.count_cons, ih, Prod.mk.injEq]
    cases prov <;> by_cases hc : c = x <;> simp [hc]

/-- Positions `2*i` and `2*i+1` of the fanned-out stream hold candidate
`i`'s S3 and GCS operations respectively. -/
theorem flatMap_pair_getElem (l : List String) :
    ∀ i : Nat,
      (l.flatMap fun name => [(name, Provider.s3), (name, Provider.gcp)])[2 * i]? =
        l[i]?.map (fun c => (c, Provider.s3)) ∧
      (l.flatMap fun name =>
          [(name, Provider.s3), (name, Provider.gcp)])[2 * i + 1]? =
        l[i]?.map (fun c => (c, Provider.gcp)) := by
  induction l with
  | nil => intro i; simp
  | cons x xs ih =>
    intro i
    cases i with
    | zero => simp
    | succ m =>
      have h2 : 2 * (m + 1) = 2 * m + 1 + 1 := by ring
      have h3 : 2 * (m + 1) + 1 = 2 * m + 1 + 1 + 1 := by ring
      simp only [List.flatMap_cons, List.cons_append, List.nil_append, h2, h3,
        List.getElem?_cons_succ]
      exact ih m

/-- C8: the pending-operation stream contains exactly one operation per
(candidate, provider) pair — counted once for candidates of the
deduplicated stream, zero otherwise — and is interleaved provider-first:
position `2*i` is candidate `i` probed via S3 (DNS) and position `2*i+1`
is candidate `i` probed via GCS (HTTP), so both providers of a candidate
precede every operation of the next candidate. -/
theorem pendingOps_one_per_pair (t : String) (ps ms : List String) :
    (∀ (c : String) (prov : Provider),
      (pendingOps t ps ms).count (c, prov) =
        if c ∈ unique_everseen (generate_buckets t ps ms) then 1 else 0) ∧
    (∀ i : Nat,
      (pendingOps t ps ms)[2 * i]? =
        (unique_everseen (generate_buckets t ps ms))[i]?.map
          (fun c => (c, Provider.s3)) ∧
      (pendingOps t ps ms)[2 * i + 1]? =
        (unique_everseen (generate_buckets t ps ms))[i]?.map
          (fun c => (c, Provider.gcp))) := by
  constructor
  · intro c prov
    rw [pendingOps, flatMap_pair_count]
    exact List.count_eq_of_nodup (unique_everseen_nodup _)
  · intro i
    exact flatMap_pair_getElem _ i

/-! ## Scheduler lemmas -/

/-- Removing the element at a valid index and putting it back in front is a
permutation. -/
theorem perm_cons_eraseIdx {l : List α} {i : Nat} {a : α}
    (h : l[i]? = some a) : (a :: l.eraseIdx i).Perm l := by
  induction l generalizing i with
  | nil => simp at h
  | cons x xs ih =>
    cases i with
    | zero =>
      simp only [List.getElem?_cons_zero, Option.some.injEq] at h
      subst h
      simp [List.eraseIdx]
    | succ n =>
      simp only [List.getElem?_cons_succ] at h
      exact (List.Perm.swap x a _).trans ((ih h).cons x)

/-- Removing the element at a valid index shortens the list by one. -/
theorem length_eraseIdx_of_getElem {l : List α} {i : Nat} {a : α}
    (h : l[i]? = some a) : (l.eraseIdx i).length + 1 = l.length := by
  have := (perm_cons_eraseIdx h).length_eq
  simpa using this

/-- Inversion of a successful scheduler step: the emitted result was the
in-flight task at the chosen index, and the new state either drops it (when
the stream is exhausted) or replaces it with the next pending operation. -/
theorem stepSched_inversion {s : SchedState α} {i : Nat} {r : α}
    {s' : SchedState α} (h : stepSched s i = some (r, s')) :
    s.futures[i]? = some r ∧
      ((s.pending = [] ∧ s' = ⟨s.futures.eraseIdx i, []⟩) ∨
        ∃ p ps, s.pending = p :: ps ∧
          s' = ⟨s.futures.eraseIdx i ++ [p], ps⟩) := by
  unfold stepSched at h
  cases hf : s.futures[i]? with
  | none => rw [hf] at h; simp at h
  | some f =>
    rw [hf] at h
    cases hp : s.pending with
    | nil =>
      rw [hp] at h
      simp only [Option.some.injEq, Prod.mk.injEq] at h
      exact ⟨congrArg some h.1, Or.inl ⟨rfl, h.2.symm⟩⟩
    | cons p ps =>
      rw [hp] at h
      simp only [Option.some.injEq, Prod.mk.injEq] at h
      exact ⟨congrArg some h.1, Or.inr ⟨p, ps, rfl, h.2.symm⟩⟩

/-- A step only rearranges the outstanding work: emitted result plus new
state is a permutation of the old state. -/
theorem stepSched_perm {s : SchedState α} {i : Nat} {r : α}
    {s' : SchedState α} (h : stepSched s i = some (r, s')) :
    (r :: (s'.futures ++ s'.pending)).Perm (s.futures ++ s.pending) := by
  obtain ⟨hf, hcase⟩ := stepSched_inversion h
  rcases hcase with ⟨hp, rfl⟩ | ⟨p, ps, hp, rfl⟩
  · rw [hp]
    simpa using perm_cons_eraseIdx hf
  · rw [hp]
    have hbase := (perm_cons_eraseIdx hf).append_right (p :: ps)
    simpa using hbase

/-- After any step, an empty window implies an exhausted stream. -/
theorem stepSched_empty_inv {s : SchedState α} {i : Nat} {r : α}
    {s' : SchedState α} (h : stepSched s i = some (r, s')) :
    s'.futures = [] → s'.pending = [] := by
  obtain ⟨hf, hcase⟩ := stepSched_inversion h
  rcases hcase with ⟨hp, rfl⟩ | ⟨p, ps, hp, rfl⟩
  · intro; rfl
  · intro habs; simp at habs

/-- A completing run emits exactly the outstanding work, reordered. -/
theorem completesRun_perm {sched : List Nat} :
    ∀ s : SchedState α, (s.futures = [] → s.pending = []) →
      completesRun s sched = true →
      (runSched s sched).Perm (s.futures ++ s.pending) := by
  induction sched with
  | nil =>
    intro s hinv h
    rw [completesRun] at h
    have hf : s.futures = [] := List.isEmpty_iff.mp h
    rw [runSched, hf, hinv hf]
    simp
  | cons i rest ih =>
    intro s hinv h
    rw [completesRun] at h
    rw [runSched]
    cases hstep : stepSched s i with
    | none => rw [hstep] at h; simp at h
    | some rs =>
      obtain ⟨r, s'⟩ := rs
      rw [hstep] at h
      have hperm := ih s' (stepSched_empty_inv hstep) h
      exact (hperm.cons r).trans (stepSched_perm hstep)

/-- Always choosing index 0 drives any invariant-satisfying state to
termination in exactly `|futures| + |pending|` steps. -/
theorem completesRun_replicate :
    ∀ (n : Nat) (s : SchedState α), (s.futures = [] → s.pending = []) →
      s.futures.length + s.pending.length = n →
      completesRun s (List.replicate n 0) = true := by
  intro n
  induction n with
  | zero =>
    intro s hinv hn
    have hf : s.futures = [] :=
      List.eq_nil_of_length_eq_zero (by omega)
    rw [List.replicate, completesRun, hf]
    rfl
  | succ n ih =>
    intro s hinv hn
    cases hfut : s.futures with
    | nil =>
      rw [hfut, hinv hfut] at hn
      simp at hn
    | cons f fs =>
      cases hp : s.pending with
      | nil =>
        have hstep : stepSched s 0 = some (f, ⟨fs, []⟩) := by
          simp [stepSched, hfut, hp]
        rw [List.replicate_succ, completesRun, hstep]
        apply ih ⟨fs, []⟩ (fun _ => rfl)
        rw [hfut, hp] at hn
        simp at hn ⊢
        omega
      | cons p ps =>
        have hstep : stepSched s 0 = some (f, ⟨fs ++ [p], ps⟩) := by
          simp [stepSched, hfut, hp]
        rw [List.replicate_succ, completesRun, hstep]
        apply ih ⟨fs ++ [p], ps⟩ (by intro habs; simp at habs)
        rw [hfut, hp] at hn
        simp at hn ⊢
        omega

/-- The initial state satisfies the empty-window-implies-exhausted-stream
invariant as soon as the bound is positive. -/
theorem initState_empty_inv (coros : List α) (B : Nat) (hB : 1 ≤ B) :
    (initState coros B).futures = [] → (initState coros B).pending = [] := by
  intro h
  simp only [initState] at h ⊢
  rcases List.take_eq_nil_iff.mp h with rfl | rfl
  · exact absurd hB (by decide)
  · simp

/-- A step keeps the window within the bound, and below the bound only with
an exhausted stream. -/
theorem stepSched_window {s : SchedState α} {i : Nat} {r : α}
    {s' : SchedState α} {B : Nat} (h : stepSched s i = some (r, s'))
    (hle : s.futures.length ≤ B)
    (hfull : s.futures.length < B → s.pending = []) :
    s'.futures.length ≤ B ∧ (s'.futures.length < B → s'.pending = []) := by
  obtain ⟨hf, hcase⟩ := stepSched_inversion h
  have hlen := length_eraseIdx_of_getElem hf
  rcases hcase with ⟨hp, rfl⟩ | ⟨p, ps, hp, rfl⟩
  · exact ⟨by simp; omega, fun _ => rfl⟩
  · have hBfull : s.futures.length = B := by
      by_contra hne
      have : s.futures.length < B := lt_of_le_of_ne hle hne
      rw [hfull this] at hp
      simp at hp
    constructor
    · simp
      omega
    · intro hlt
      simp at hlt
      omega

/-- The window invariant holds in every reachable state. -/
theorem runSchedState_window {B : Nat} {sched : List Nat} :
    ∀ s s' : SchedState α, runSchedState s sched = some s' →
      s.futures.length ≤ B → (s.futures.length < B → s.pending = []) →
      s'.futures.length ≤ B ∧ (s'.futures.length < B → s'.pending = []) := by
  induction sched with
  | nil =>
    intro s s' h hle hfull
    rw [runSchedState] at h
    cases h
    exact ⟨hle, hfull⟩
  | cons i rest ih =>
    intro s s' h hle hfull
    rw [runSchedState] at h
    cases hstep : stepSched s i with
    | none => rw [hstep] at h; simp at h
    | some rs =>
      obtain ⟨r, s₁⟩ := rs
      rw [hstep] at h
      obtain ⟨hle', hfull'⟩ := stepSched_window hstep hle hfull
      exact ih s₁ s' h hle' hfull'

/-! ## C1, C2, C9: scheduler claims -/

/-- C1: in every state reachable from the start of `bounded_as_completed`,
the in-flight window holds at most `B` tasks and is strictly below `B`
only once the pending stream is exhausted; and whenever a task completes
while the stream is not exhausted, exactly one pending operation is
admitted, keeping the window size unchanged. -/
theorem bounded_as_completed_window {α : Type} (coros : List α) (B : Nat)
    (sched : List Nat) (s : SchedState α)
    (hreach : runSchedState (initState coros B) sched = some s) :
    (s.futures.length ≤ B ∧ (s.futures.length < B → s.pending = [])) ∧
    (∀ (i : Nat) (r : α) (s' : SchedState α),
      stepSched s i = some (r, s') → s.pending ≠ [] →
        s'.futures.length = s.futures.length ∧
          s'.pending.length + 1 = s.pending.length) := by
  constructor
  · refine runSchedState_window (initState coros B) s hreach ?_ ?_
    · simp [initState]
    · intro hlt
      simp only [initState, List.length_take] at hlt ⊢
      have : coros.length < B := by omega
      exact List.drop_eq_nil_of_le (le_of_lt this)
  · intro i r s' hstep hpend
    obtain ⟨hf, hcase⟩ := stepSched_inversion hstep
    have hlen := length_eraseIdx_of_getElem hf
    rcases hcase with ⟨hp, rfl⟩ | ⟨p, ps, hp, rfl⟩
    · exact absurd hp hpend
    · constructor
      · simp
        omega
      · rw [hp]
        simp

/-- C1 witness: the invariant evaluated in the state reached after one
completion from `initState [1, 2, 3] 2`. -/
theorem bounded_as_completed_window_witness :
    ((SchedState.mk [2, 3] ([] : List Nat)).futures.length ≤ 2 ∧
      ((SchedState.mk [2, 3] ([] : List Nat)).futures.length < 2 →
        (SchedState.mk [2, 3] ([] : List Nat)).pending = [])) ∧
    (∀ (i : Nat) (r : Nat) (s' : SchedState Nat),
      stepSched (SchedState.mk [2, 3] ([] : List Nat)) i = some (r, s') →
      (SchedState.mk [2, 3] ([] : List Nat)).pending ≠ [] →
        s'.futures.length = (SchedState.mk [2, 3] ([] : List Nat)).futures.length ∧
          s'.pending.length + 1 =
            (SchedState.mk [2, 3] ([] : List Nat)).pending.length) :=
  bounded_as_completed_window [1, 2, 3] 2 [0] ⟨[2, 3], []⟩ (by decide)

/-- C2: for every finite input of `N` operations and every bound `B ≥ 1`,
the scheduler can run to termination, and every terminating run emits
exactly `N` outcomes which are a permutation of the input operations —
each outcome corresponds to exactly one input operation. -/
theorem bounded_as_completed_yields_all {α : Type} (coros : List α) (B : Nat)
    (hB : 1 ≤ B) :
    (∃ sched : List Nat, completesRun (initState coros B) sched = true) ∧
    (∀ sched : List Nat, completesRun (initState coros B) sched = true →
      (runSched (initState coros B) sched).length = coros.length ∧
      (runSched (initState coros B) sched).Perm coros) := by
  have hinv := initState_empty_inv coros B hB
  have hsplit : (initState coros B).futures ++ (initState coros B).pending =
      coros := by
    simp [initState]
  constructor
  · exact ⟨List.replicate ((initState coros B).futures.length +
      (initState coros B).pending.length) 0,
      completesRun_replicate _ _ hinv rfl⟩
  · intro sched h
    have hperm := completesRun_perm (initState coros B) hinv h
    rw [hsplit] at hperm
    exact ⟨hperm.length_eq, hperm⟩

/-- C2 witness: a terminating run over three operations with bound 2 emits
a permutation of the input. -/
theorem bounded_as_completed_yields_all_witness :
    (runSched (initState ([10, 20, 30] : List Nat) 2) [0, 0, 0]).Perm
      [10, 20, 30] :=
  ((bounded_as_completed_yields_all [10, 20, 30] 2 (by decide)).2
    [0, 0, 0] (by decide)).2

/-- C9: with bound `B = 0` the scheduler starts no task, yields nothing,
and terminates immediately; on a non-empty input this breaks the
exactly-`N`-outcomes contract, so that contract needs the unstated
precondition `B ≥ 1`. -/
theorem bounded_as_completed_bound_zero {α : Type} (coros : List α)
    (sched : List Nat) (hne : coros ≠ []) :
    (initState coros 0).futures = [] ∧
    runSched (initState coros 0) sched = [] ∧
    completesRun (initState coros 0) [] = true ∧
    (runSched (initState coros 0) sched).length ≠ coros.length := by
  have hfut : (initState coros 0).futures = [] := by simp [initState]
  have hrun : runSched (initState coros 0) sched = [] := by
    cases sched with
    | nil => rfl
    | cons i rest =>
      rw [runSched]
      have : stepSched (initState coros 0) i = none := by
        unfold stepSched
        rw [hfut]
        simp
      rw [this]
  refine ⟨hfut, hrun, ?_, ?_⟩
  · rw [completesRun, hfut]
    rfl
  · rw [hrun]
    simp only [List.length_nil]
    intro h
    exact hne (List.eq_nil_of_length_eq_zero h.symm)

/-- C9 witness: bound 0 over a two-operation input yields nothing. -/
theorem bounded_as_completed_bound_zero_witness :
    runSched (initState ([1, 2] : List Nat) 0) [0] = [] ∧
    (runSched (initState ([1, 2] : List Nat) 0) [0]).length ≠
      ([1, 2] : List Nat).length :=
  ⟨(bounded_as_completed_bound_zero [1, 2] [0] (by decide)).2.1,
   (bounded_as_completed_bound_zero [1, 2] [0] (by decide)).2.2.2⟩

end Yase
